import Mathlib

/-!
Verification development for the realtime-audio-analysis-module repository.

Part 1 embeds the generic mixed-radix butterfly `kf_bfly_generic` from
`src/android/src/main/cpp/kiss_fft/_kiss_fft_guts.h` (floating-point build,
where `C_FIXDIV` is a no-op), with the machine `float` complex arithmetic
modelled exactly over an arbitrary commutative ring of scalars.

Part 2 embeds the JNI spectral-analysis pipeline from
`src/android/src/main/cpp/audio-analysis-jni.cpp`, with `float` modelled as
the real numbers.  The forward real transform `kiss_fftr` and the allocator
`kiss_fftr_alloc` are external collaborators (their implementations are not
part of this repository), so the pipeline is parameterised over them: the
transform is an arbitrary function from the plan size and the windowed input
to the complex half-spectrum, and allocation success is an arbitrary
predicate of the requested size.
-/

namespace AudioAnalysis

/-- `kiss_fft_cpx`: a complex value as a pair of scalar components `r`, `i`
(`kiss_fft.h`, lines 43-47). -/
structure Cpx (α : Type) where
  r : α
  i : α

variable {α : Type} [CommRing α]

/-- `C_MUL(m,a,b)`: complex multiplication as in `_kiss_fft_guts.h`
(float branch, lines 67-71). -/
def C_MUL (a b : Cpx α) : Cpx α :=
  ⟨a.r * b.r - a.i * b.i, a.r * b.i + a.i * b.r⟩

/-- `C_ADDTO(res,a)` / `C_ADD`: componentwise complex addition
(`_kiss_fft_guts.h`, lines 84-104). -/
def C_ADD (a b : Cpx α) : Cpx α :=
  ⟨a.r + b.r, a.i + b.i⟩

instance : Zero (Cpx α) := ⟨⟨0, 0⟩⟩

instance : Add (Cpx α) := ⟨C_ADD⟩

instance : AddCommMonoid (Cpx α) where
  add_assoc a b c := by
    cases a; cases b; cases c
    show C_ADD (C_ADD _ _) _ = C_ADD _ (C_ADD _ _)
    simp [C_ADD, add_assoc]
  zero_add a := by
    cases a
    show C_ADD ⟨0, 0⟩ _ = _
    simp [C_ADD]
  add_zero a := by
    cases a
    show C_ADD _ ⟨0, 0⟩ = _
    simp [C_ADD]
  add_comm a b := by
    cases a; cases b
    show C_ADD _ _ = C_ADD _ _
    simp [C_ADD, add_comm]
  nsmul := nsmulRec

/-- The body of `twidx += fstride * k; if (twidx >= Norig) twidx -= Norig;`
(`_kiss_fft_guts.h`, lines 211-213): one additive step of the running
twiddle index followed by the single conditional subtraction, where `fk`
stands for the per-position increment `fstride * k`. -/
def twidxStep (fk Norig t : ℕ) : ℕ :=
  let t' := t + fk
  if Norig ≤ t' then t' - Norig else t'

/-- The value of the running twiddle index after `q` iterations of the inner
loop of `kf_bfly_generic` at a fixed output position (increment `fk`). -/
def twidxAt (fk Norig : ℕ) : ℕ → ℕ
  | 0 => 0
  | q + 1 => twidxStep fk Norig (twidxAt fk Norig q)

/-- The inner accumulation loop `for (q = 1; q < p; ++q)` of
`kf_bfly_generic` (`_kiss_fft_guts.h`, lines 208-216), carrying the loop
counter `q`, the running twiddle index `t` and the accumulator `acc`
(the current value of `Fout[k]`); `fuel` is the number of remaining
iterations. -/
def combineSteps (scratch tw : ℕ → Cpx α) (fk Norig : ℕ) :
    ℕ → ℕ → ℕ → Cpx α → Cpx α
  | 0, _, _, acc => acc
  | fuel + 1, q, t, acc =>
    let t' := twidxStep fk Norig t
    combineSteps scratch tw fk Norig fuel (q + 1) t'
      (C_ADD acc (C_MUL (scratch q) (tw t')))

/-- The full recombination at one output position `k`:
`Fout[k] = scratch[0]` followed by the `p - 1` accumulation iterations
(`_kiss_fft_guts.h`, lines 208-216); `fk = fstride * k`. -/
def combineAt (scratch tw : ℕ → Cpx α) (fk Norig p : ℕ) : Cpx α :=
  combineSteps scratch tw fk Norig (p - 1) 1 0 (scratch 0)

/-- Write `v` at index `k` of the in-place data viewed as a total function. -/
def setAt (F : ℕ → Cpx α) (k : ℕ) (v : Cpx α) : ℕ → Cpx α :=
  fun j => if j = k then v else F j

/-- The second `q1` loop of a lane (`_kiss_fft_guts.h`, lines 206-218):
after `cnt` iterations, the output positions `u + q1 * m` for `q1 < cnt`
have been overwritten with their recombined values. -/
def laneWriteLoop (F : ℕ → Cpx α) (scratch tw : ℕ → Cpx α)
    (fstride Norig m p u : ℕ) : ℕ → (ℕ → Cpx α)
  | 0 => F
  | cnt + 1 =>
    let F' := laneWriteLoop F scratch tw fstride Norig m p u cnt
    setAt F' (u + cnt * m)
      (combineAt scratch tw (fstride * (u + cnt * m)) Norig p)

/-- One iteration of the outer `u` loop of `kf_bfly_generic`
(`_kiss_fft_guts.h`, lines 198-218): gather the `p` values of lane `u`
at stride `m` into `scratch` (`C_FIXDIV` is a no-op in the float build),
then overwrite the `p` positions of the lane. -/
def processLane (F tw : ℕ → Cpx α) (fstride Norig m p u : ℕ) : ℕ → Cpx α :=
  let scratch : ℕ → Cpx α := fun q1 => F (u + q1 * m)
  laneWriteLoop F scratch tw fstride Norig m p u p

/-- The outer `for (u = 0; u < m; ++u)` loop of `kf_bfly_generic` after
`cnt` iterations. -/
def kfBflyLoop (tw : ℕ → Cpx α) (fstride Norig m p : ℕ) (F : ℕ → Cpx α) :
    ℕ → (ℕ → Cpx α)
  | 0 => F
  | u + 1 => processLane (kfBflyLoop tw fstride Norig m p F u) tw
      fstride Norig m p u

/-- `kf_bfly_generic(Fout, fstride, st, m, p)`
(`_kiss_fft_guts.h`, lines 180-221): `tw` is the twiddle table
`st->twiddles` and `Norig = st->nfft`.  The in-place data `Fout` is viewed
as a total function on indices. -/
def kf_bfly_generic (F : ℕ → Cpx α) (fstride : ℕ) (tw : ℕ → Cpx α)
    (Norig m p : ℕ) : ℕ → Cpx α :=
  kfBflyLoop tw fstride Norig m p F m

/-! ## Part 2: the JNI spectral-analysis pipeline (`audio-analysis-jni.cpp`) -/

/-- Pipeline state: the process-wide globals of `audio-analysis-jni.cpp`
(lines 7-12).  `cfg` models the opaque `kiss_fftr_cfg` pointer by the size
the live configuration was built for (`none` = null pointer). -/
structure FftState where
  cfg : Option ℤ
  current_nfft : ℤ
  window : List ℝ
  fft_in : List ℝ
  fft_out : List (Cpx ℝ)

/-- The initial values of the globals (lines 8-12): null configuration,
`current_nfft = 0`, empty vectors. -/
def initState : FftState := ⟨none, 0, [], [], []⟩

/-- `std::vector::resize(n)`: keep the first `n` elements, value-initialise
any appended ones with `z`. -/
def vecResize {β : Type} (l : List β) (n : ℕ) (z : β) : List β :=
  l.take n ++ List.replicate (n - l.length) z

/-- The Hann window precomputation loop (lines 36-38):
`window[i] = 0.5f * (1.0f - cosf(2.0f * M_PI * i / (nfft - 1)))` for
`i` in `[0, nfft)`, with `float` modelled exactly as `ℝ`. -/
noncomputable def hannWindow (n : ℕ) : List ℝ :=
  (List.range n).map fun i : ℕ =>
    0.5 * (1 - Real.cos (2 * Real.pi * i / ((n : ℝ) - 1)))

/-- The windowing loop (lines 58-60): `fft_in[i] = inData[i] * window[i]`
for `i` in `[0, nfft)`.  Out-of-range reads return the default `0`
(the boundary contract requires `input` to hold at least `nfft` samples). -/
noncomputable def applyWindow (input w : List ℝ) (n : ℕ) : List ℝ :=
  (List.range n).map fun i => input.getD i 0 * w.getD i 0

/-- The magnitude computed at bin `i` (lines 78-80):
`sqrtf(re * re + im * im)` of the `i`-th complex output bin. -/
noncomputable def magAt (fout : List (Cpx ℝ)) (i : ℕ) : ℝ :=
  Real.sqrt ((fout.getD i ⟨0, 0⟩).r * (fout.getD i ⟨0, 0⟩).r
    + (fout.getD i ⟨0, 0⟩).i * (fout.getD i ⟨0, 0⟩).i)

/-- The magnitude output loop (lines 74-86): positions `i < bins` of the
caller's output buffer receive `magAt fout i / divisor`; every other
position keeps its previous contents. -/
noncomputable def writeMags (out : List ℝ) (fout : List (Cpx ℝ))
    (bins : ℕ) (divisor : ℝ) : List ℝ :=
  (List.range out.length).map fun i =>
    if i < bins then magAt fout i / divisor else out.getD i 0

/-- `Java_com_realtimeaudio_AudioEngine_computeFft` (lines 14-91).
The external collaborators are parameters: `allocOk nfft` is whether
`kiss_fftr_alloc(nfft, 0, NULL, NULL)` succeeds, and `fftr c fin` is the
half-spectrum `kiss_fftr` writes for a plan built for size `c` on windowed
input `fin`.  `buffersOk` is whether `GetFloatArrayElements` succeeds for
both caller arrays (lines 42-49; on failure the call releases and returns
with nothing written).  The result pairs the new global state with the
contents of the caller's output buffer after the call. -/
noncomputable def computeFft (allocOk : ℤ → Bool)
    (fftr : ℤ → List ℝ → List (Cpx ℝ)) (s : FftState)
    (input output : List ℝ) (nfft : ℤ) (buffersOk : Bool) :
    FftState × List ℝ :=
  if nfft ≤ 0 then (s, output)
  else
    -- 1. reallocate configuration if size changed (lines 21-39)
    match
      (if s.cfg = none ∨ s.current_nfft ≠ nfft then
        (if allocOk nfft then
          some { cfg := some nfft, current_nfft := nfft,
                 window := hannWindow nfft.toNat,
                 fft_in := vecResize s.fft_in nfft.toNat 0,
                 fft_out := vecResize s.fft_out (nfft.toNat / 2 + 1) ⟨0, 0⟩ }
        else none)
      else some s : Option FftState)
    with
    | none => ({ s with cfg := none }, output)   -- allocation failed (lines 25-28)
    | some s1 =>
      -- 2. get input data (lines 42-49)
      if buffersOk = false then (s1, output)
      else
        -- defensive null check (lines 51-55); cfg is non-null here
        match s1.cfg with
        | none => (s1, output)
        | some c =>
          -- 3. window (57-60), 4. transform (63), 5. magnitudes (74-86)
          let fin := applyWindow input s1.window nfft.toNat
          let fout := fftr c fin
          let bins := min output.length (nfft.toNat / 2)
          ({ s1 with fft_in := fin, fft_out := fout },
            writeMags output fout bins (((nfft / 2 : ℤ) : ℝ)))

/-- `Java_com_realtimeaudio_AudioEngine_cleanupFft` (lines 93-100): frees
the configuration if held, nulls the pointer, resets `current_nfft` to 0.
The scratch vectors are untouched. -/
def cleanupFft (s : FftState) : FftState :=
  { s with cfg := none, current_nfft := 0 }

/-- Global states reachable through the two JNI entry points, for a fixed
external transform `fftr`; each call may see any allocator outcome, any
buffer accessibility, and any arguments. -/
inductive Reachable (fftr : ℤ → List ℝ → List (Cpx ℝ)) : FftState → Prop
  | init : Reachable fftr initState
  | compute (s : FftState) (allocOk : ℤ → Bool) (input output : List ℝ)
      (nfft : ℤ) (buffersOk : Bool) : Reachable fftr s →
      Reachable fftr (computeFft allocOk fftr s input output nfft buffersOk).1
  | cleanup (s : FftState) : Reachable fftr s → Reachable fftr (cleanupFft s)

/-- The buffer-length invariant of spec §3: window table and windowed
buffer have the cached transform size and the complex spectrum has
size/2 + 1 entries, all read against the cached `current_nfft`. -/
def SizesConsistent (s : FftState) : Prop :=
  s.window.length = s.current_nfft.toNat ∧
  s.fft_in.length = s.current_nfft.toNat ∧
  s.fft_out.length = s.current_nfft.toNat / 2 + 1

/-- Cache well-formedness: whenever a configuration is held it was built
for the cached size, that size is positive, the window table is the Hann
table for it, and the scratch buffers are sized consistently. -/
def CacheWF (s : FftState) : Prop :=
  ∀ c : ℤ, s.cfg = some c →
    s.current_nfft = c ∧ 0 < c ∧ s.window = hannWindow c.toNat ∧
      SizesConsistent s

/-- The §6 contract of the external forward real transform: for a plan of
size `n` it produces exactly `n/2 + 1` complex bins. -/
def FftrContract (fftr : ℤ → List ℝ → List (Cpx ℝ)) : Prop :=
  ∀ n l, (fftr n l).length = n.toNat / 2 + 1

/-- A trivial inhabitant of the transform contract, used to exhibit
concrete runs: every bin is zero. -/
noncomputable def fftr0 : ℤ → List ℝ → List (Cpx ℝ) :=
  fun n _ => List.replicate (n.toNat / 2 + 1) ⟨0, 0⟩


/-! ## Theorems about the generic butterfly embedding -/

theorem C_ADD_eq_add {α : Type} [CommRing α] (a b : Cpx α) : C_ADD a b = a + b := rfl

theorem twidxStep_eq_mod (fk Norig t : ℕ) (hfk : fk < Norig) (ht : t < Norig) :
    twidxStep fk Norig t = (t + fk) % Norig := by
  unfold twidxStep
  by_cases h : Norig ≤ t + fk
  · rw [if_pos h, Nat.mod_eq_sub_mod h, Nat.mod_eq_of_lt (by omega)]
  · rw [if_neg h, Nat.mod_eq_of_lt (by omega)]

theorem twidxAt_mod (fk Norig : ℕ) (h : fk < Norig ∨ fk = 0) :
    ∀ q, twidxAt fk Norig q = q * fk % Norig := by
  intro q
  induction q with
  | zero => simp [twidxAt]
  | succ q ih =>
    rcases h with h | h
    · have hN : 0 < Norig := Nat.lt_of_le_of_lt (Nat.zero_le fk) h
      rw [twidxAt, ih, twidxStep_eq_mod fk Norig _ h (Nat.mod_lt _ hN),
        Nat.mod_add_mod, Nat.succ_mul]
    · subst h
      rw [twidxAt, ih]
      simp [twidxStep]

theorem combineSteps_eq (scratch tw : ℕ → Cpx α) (fk Norig : ℕ)
    (h : fk < Norig ∨ fk = 0) :
    ∀ fuel q acc,
      combineSteps scratch tw fk Norig fuel (q + 1) (twidxAt fk Norig q) acc
        = acc + ∑ i ∈ Finset.Ico (q + 1) (q + 1 + fuel),
            C_MUL (scratch i) (tw (i * fk % Norig)) := by
  intro fuel
  induction fuel with
  | zero => intro q acc; simp [combineSteps]
  | succ fuel ih =>
    intro q acc
    simp only [combineSteps]
    have hstep : twidxStep fk Norig (twidxAt fk Norig q)
        = twidxAt fk Norig (q + 1) := rfl
    rw [hstep, ih (q + 1)]
    rw [twidxAt_mod fk Norig h (q + 1)]
    have hset : q + 1 + (fuel + 1) = q + 1 + 1 + fuel := by omega
    have hpe : (∑ i ∈ Finset.Ico (q + 1) (q + 1 + 1 + fuel),
        C_MUL (scratch i) (tw (i * fk % Norig)))
        = C_MUL (scratch (q + 1)) (tw ((q + 1) * fk % Norig))
          + ∑ i ∈ Finset.Ico (q + 1 + 1) (q + 1 + 1 + fuel),
              C_MUL (scratch i) (tw (i * fk % Norig)) :=
      Finset.sum_eq_sum_Ico_succ_bot (by omega)
        (fun i => C_MUL (scratch i) (tw (i * fk % Norig)))
    rw [hset, hpe, C_ADD_eq_add, add_assoc]

theorem combineAt_eq (scratch tw : ℕ → Cpx α) (fk Norig p : ℕ)
    (h : fk < Norig ∨ fk = 0) (hp : 0 < p) :
    combineAt scratch tw fk Norig p
      = scratch 0 + ∑ i ∈ Finset.Ico 1 p,
          C_MUL (scratch i) (tw (i * fk % Norig)) := by
  unfold combineAt
  have hc := combineSteps_eq scratch tw fk Norig h (p - 1) 0 (scratch 0)
  have h0 : twidxAt fk Norig 0 = 0 := rfl
  have h3 : 0 + 1 + (p - 1) = p := by omega
  rw [h0, h3] at hc
  simpa using hc

theorem combineSteps_congr (s1 s2 tw : ℕ → Cpx α) (fk Norig : ℕ) :
    ∀ fuel q t acc, (∀ i, q ≤ i → i < q + fuel → s1 i = s2 i) →
      combineSteps s1 tw fk Norig fuel q t acc
        = combineSteps s2 tw fk Norig fuel q t acc := by
  intro fuel
  induction fuel with
  | zero => intro q t acc _; rfl
  | succ fuel ih =>
    intro q t acc h
    simp only [combineSteps]
    rw [h q (Nat.le_refl q) (by omega)]
    exact ih (q + 1) _ _ (fun i hi1 hi2 => h i (by omega) (by omega))

theorem combineAt_congr (s1 s2 tw : ℕ → Cpx α) (fk Norig p : ℕ)
    (h : ∀ i, i < p → s1 i = s2 i) (hp : 0 < p) :
    combineAt s1 tw fk Norig p = combineAt s2 tw fk Norig p := by
  unfold combineAt
  rw [h 0 hp]
  exact combineSteps_congr s1 s2 tw fk Norig (p - 1) 1 0 (s2 0)
    (fun i h1 h2 => h i (by omega))

theorem laneWriteLoop_frame (F scratch tw : ℕ → Cpx α)
    (fstride Norig m p u : ℕ) :
    ∀ cnt j, (∀ q1, q1 < cnt → j ≠ u + q1 * m) →
      laneWriteLoop F scratch tw fstride Norig m p u cnt j = F j := by
  intro cnt
  induction cnt with
  | zero => intro j _; rfl
  | succ cnt ih =>
    intro j hj
    have hne : j ≠ u + cnt * m := hj cnt (Nat.lt_succ_self cnt)
    simp only [laneWriteLoop, setAt]
    rw [if_neg hne]
    exact ih j (fun q1 hq1 => hj q1 (Nat.lt_succ_of_lt hq1))

theorem laneWriteLoop_at (F scratch tw : ℕ → Cpx α)
    (fstride Norig m p u : ℕ) (hm : 0 < m) :
    ∀ cnt j, j < cnt →
      laneWriteLoop F scratch tw fstride Norig m p u cnt (u + j * m)
        = combineAt scratch tw (fstride * (u + j * m)) Norig p := by
  intro cnt
  induction cnt with
  | zero => intro j hj; exact absurd hj (Nat.not_lt_zero j)
  | succ cnt ih =>
    intro j hj
    simp only [laneWriteLoop, setAt]
    by_cases hcase : j = cnt
    · subst hcase
      rw [if_pos rfl]
    · have hne : u + j * m ≠ u + cnt * m := by
        intro hcontra
        exact hcase (Nat.eq_of_mul_eq_mul_right hm (Nat.add_left_cancel hcontra))
      rw [if_neg hne]
      exact ih j (by omega)

theorem processLane_at (F tw : ℕ → Cpx α) (fstride Norig m p u j : ℕ)
    (hm : 0 < m) (hj : j < p) :
    processLane F tw fstride Norig m p u (u + j * m)
      = combineAt (fun q1 => F (u + q1 * m)) tw
          (fstride * (u + j * m)) Norig p :=
  laneWriteLoop_at F (fun q1 => F (u + q1 * m)) tw fstride Norig m p u hm p j hj

theorem processLane_frame (F tw : ℕ → Cpx α) (fstride Norig m p u i : ℕ)
    (hi : ∀ q1, q1 < p → i ≠ u + q1 * m) :
    processLane F tw fstride Norig m p u i = F i :=
  laneWriteLoop_frame F (fun q1 => F (u + q1 * m)) tw fstride Norig m p u p i hi

theorem lane_index_ne {m u1 u2 a b : ℕ} (h1 : u1 < m) (h2 : u2 < m)
    (hne : u1 ≠ u2) : u1 + a * m ≠ u2 + b * m := by
  intro h
  apply hne
  have hmod := congrArg (fun x => x % m) h
  simpa [Nat.add_mul_mod_self_right, Nat.mod_eq_of_lt h1,
    Nat.mod_eq_of_lt h2] using hmod

theorem kfBflyLoop_frame (tw : ℕ → Cpx α) (fstride Norig m p : ℕ)
    (F : ℕ → Cpx α) :
    ∀ cnt, cnt ≤ m → ∀ u j, u < m → cnt ≤ u →
      kfBflyLoop tw fstride Norig m p F cnt (u + j * m) = F (u + j * m) := by
  intro cnt
  induction cnt with
  | zero => intro _ u j _ _; rfl
  | succ cnt ih =>
    intro hcnt u j hu hcu
    simp only [kfBflyLoop]
    rw [processLane_frame _ tw fstride Norig m p cnt (u + j * m)
      (fun q1 _ => lane_index_ne hu (by omega) (by omega))]
    exact ih (by omega) u j hu (by omega)

theorem kfBflyLoop_at (tw : ℕ → Cpx α) (fstride Norig m p : ℕ)
    (F : ℕ → Cpx α) :
    ∀ cnt, cnt ≤ m → ∀ u j, u < cnt → j < p →
      kfBflyLoop tw fstride Norig m p F cnt (u + j * m)
        = combineAt (fun q1 => F (u + q1 * m)) tw
            (fstride * (u + j * m)) Norig p := by
  intro cnt
  induction cnt with
  | zero => intro _ u j hu _; exact absurd hu (Nat.not_lt_zero u)
  | succ cnt ih =>
    intro hcnt u j hu hj
    have hm : 0 < m := by omega
    simp only [kfBflyLoop]
    by_cases hcase : u = cnt
    · subst hcase
      rw [processLane_at _ tw fstride Norig m p u j hm hj]
      exact combineAt_congr _ _ tw _ Norig p
        (fun i _ => kfBflyLoop_frame tw fstride Norig m p F u
          (by omega) u i (by omega) (by omega)) (by omega)
    · rw [processLane_frame _ tw fstride Norig m p cnt (u + j * m)
        (fun q1 _ => lane_index_ne (by omega) (by omega) hcase)]
      exact ih (by omega) u j (by omega) hj

/-- C1: in `kf_bfly_generic` with a twiddle table built for total size
`Norig` and `fstride * m * p = Norig`, the final value at index `u + j * m`
(lane `u < m`, output position `j < p`) is the direct size-`p` DFT of the
lane's `p` gathered values: the `q = 0` gathered value is added with no
twiddle multiplication, and the `q`-th gathered value (originally at index
`u + q * m`) is multiplied by the twiddle factor at index
`q * fstride * (u + j * m) mod Norig`. -/
theorem kf_bfly_generic_lane_dft (F tw : ℕ → Cpx α)
    (fstride Norig m p u j : ℕ)
    (hdec : fstride * m * p = Norig) (hu : u < m) (hj : j < p) :
    kf_bfly_generic F fstride tw Norig m p (u + j * m)
      = F u + ∑ q ∈ Finset.Ico 1 p,
          C_MUL (F (u + q * m)) (tw (q * fstride * (u + j * m) % Norig)) := by
  have hp : 0 < p := by omega
  have hkm : u + j * m < m * p := by
    have h1 : (j + 1) * m ≤ p * m := Nat.mul_le_mul_right m hj
    have h2 : j * m + m = (j + 1) * m := by ring
    have h3 : p * m = m * p := Nat.mul_comm p m
    omega
  have hH : fstride * (u + j * m) < Norig ∨ fstride * (u + j * m) = 0 := by
    rcases Nat.eq_zero_or_pos fstride with hf | hf
    · right; simp [hf]
    · left
      have h4 : fstride * (u + j * m) + fstride ≤ fstride * (m * p) := by
        have h5 := Nat.mul_le_mul_left fstride
          (show u + j * m + 1 ≤ m * p from hkm)
        calc fstride * (u + j * m) + fstride
            = fstride * (u + j * m + 1) := by ring
          _ ≤ fstride * (m * p) := h5
      have h6 : fstride * (m * p) = Norig := by rw [← hdec]; ring
      omega
  unfold kf_bfly_generic
  rw [kfBflyLoop_at tw fstride Norig m p F m (Nat.le_refl m) u j hu hj]
  rw [combineAt_eq _ tw _ Norig p hH hp]
  simp only [Nat.zero_mul, Nat.add_zero, ← Nat.mul_assoc]

/-- C10: in `kf_bfly_generic` under the precondition that the layer is a
true decomposition of the transform size (`fstride * m * p = Norig` with
`fstride, m, p ≥ 1`), every in-place data index `u + j * m` is below
`m * p`, and at every output position the running twiddle index stays
strictly below `Norig` before each use and the single conditional
subtraction is a complete modular reduction: after `q` inner-loop steps the
index equals `q * fstride * (u + j * m) mod Norig` exactly. -/
theorem kf_bfly_generic_accesses_in_bounds (fstride Norig m p u j : ℕ)
    (hdec : fstride * m * p = Norig) (hfs : 0 < fstride)
    (hu : u < m) (hj : j < p) :
    u + j * m < m * p ∧
      ∀ q, q < p →
        twidxAt (fstride * (u + j * m)) Norig q < Norig ∧
          twidxAt (fstride * (u + j * m)) Norig q
            = q * (fstride * (u + j * m)) % Norig := by
  have hkm : u + j * m < m * p := by
    have h1 : (j + 1) * m ≤ p * m := Nat.mul_le_mul_right m hj
    have h2 : j * m + m = (j + 1) * m := by ring
    have h3 : p * m = m * p := Nat.mul_comm p m
    omega
  have hfk : fstride * (u + j * m) < Norig := by
    have h4 : fstride * (u + j * m) + fstride ≤ fstride * (m * p) := by
      have h5 := Nat.mul_le_mul_left fstride
        (show u + j * m + 1 ≤ m * p from hkm)
      calc fstride * (u + j * m) + fstride
          = fstride * (u + j * m + 1) := by ring
        _ ≤ fstride * (m * p) := h5
    have h6 : fstride * (m * p) = Norig := by rw [← hdec]; ring
    omega
  have hN : 0 < Norig := Nat.lt_of_le_of_lt (Nat.zero_le _) hfk
  refine ⟨hkm, fun q _ => ?_⟩
  have heq := twidxAt_mod (fstride * (u + j * m)) Norig (Or.inl hfk) q
  exact ⟨heq ▸ Nat.mod_lt _ hN, heq⟩


theorem fftr0_contract : FftrContract fftr0 := by
  intro n l
  simp [fftr0]

/-! ### Elementary facts about the buffer operations -/

theorem vecResize_length {β : Type} (l : List β) (n : ℕ) (z : β) :
    (vecResize l n z).length = n := by
  simp only [vecResize, List.length_append, List.length_take,
    List.length_replicate]
  omega

theorem hannWindow_length (n : ℕ) : (hannWindow n).length = n := by
  rw [hannWindow, List.length_map, List.length_range]

theorem applyWindow_length (input w : List ℝ) (n : ℕ) :
    (applyWindow input w n).length = n := by
  rw [applyWindow, List.length_map, List.length_range]

theorem writeMags_length (out : List ℝ) (fout : List (Cpx ℝ))
    (bins : ℕ) (divisor : ℝ) :
    (writeMags out fout bins divisor).length = out.length := by
  rw [writeMags, List.length_map, List.length_range]

theorem getD_range_map {β : Type} (f : ℕ → β) (n i : ℕ) (d : β)
    (h : i < n) : ((List.range n).map f).getD i d = f i := by
  rw [List.getD_eq_getElem _ d (by simpa using h)]
  simp

theorem getD_range_map_ge {β : Type} (f : ℕ → β) (n i : ℕ) (d : β)
    (h : n ≤ i) : ((List.range n).map f).getD i d = d := by
  apply List.getD_eq_default
  simpa using h

theorem hannWindow_getD (n i : ℕ) (h : i < n) :
    (hannWindow n).getD i 0
      = 0.5 * (1 - Real.cos (2 * Real.pi * i / ((n : ℝ) - 1))) := by
  unfold hannWindow
  exact getD_range_map _ n i 0 h

theorem applyWindow_getD (input w : List ℝ) (n i : ℕ) (h : i < n) :
    (applyWindow input w n).getD i 0 = input.getD i 0 * w.getD i 0 := by
  unfold applyWindow
  exact getD_range_map _ n i 0 h

theorem writeMags_getD_lt (out : List ℝ) (fout : List (Cpx ℝ))
    (bins : ℕ) (divisor : ℝ) (i : ℕ) (hib : i < bins)
    (hio : i < out.length) :
    (writeMags out fout bins divisor).getD i 0 = magAt fout i / divisor := by
  unfold writeMags
  rw [getD_range_map _ _ _ _ hio, if_pos hib]

theorem writeMags_getD_ge (out : List ℝ) (fout : List (Cpx ℝ))
    (bins : ℕ) (divisor : ℝ) (i : ℕ) (hib : bins ≤ i) :
    (writeMags out fout bins divisor).getD i 0 = out.getD i 0 := by
  by_cases hio : i < out.length
  · unfold writeMags
    rw [getD_range_map _ _ _ _ hio, if_neg (by omega)]
  · unfold writeMags
    rw [getD_range_map_ge _ _ _ _ (by omega),
      List.getD_eq_default _ _ (by omega)]

theorem applyWindow_take (input w : List ℝ) (n : ℕ) :
    applyWindow (input.take n) w n = applyWindow input w n := by
  unfold applyWindow
  apply List.map_congr_left
  intro i hi
  have hin : i < n := List.mem_range.mp hi
  simp only [List.getD_eq_getElem?_getD]
  rw [List.getElem?_take, if_pos hin]

/-! ### Branch evaluations of `computeFft` -/

theorem computeFft_nonpos (allocOk : ℤ → Bool)
    (fftr : ℤ → List ℝ → List (Cpx ℝ)) (s : FftState)
    (input output : List ℝ) (nfft : ℤ) (buffersOk : Bool) (h : nfft ≤ 0) :
    computeFft allocOk fftr s input output nfft buffersOk = (s, output) := by
  unfold computeFft
  rw [if_pos h]

theorem computeFft_rebuild (allocOk : ℤ → Bool)
    (fftr : ℤ → List ℝ → List (Cpx ℝ)) (s : FftState)
    (input output : List ℝ) (nfft : ℤ) (hn : 0 < nfft)
    (hre : s.cfg = none ∨ s.current_nfft ≠ nfft)
    (ha : allocOk nfft = true) :
    computeFft allocOk fftr s input output nfft true =
      ({ cfg := some nfft, current_nfft := nfft,
         window := hannWindow nfft.toNat,
         fft_in := applyWindow input (hannWindow nfft.toNat) nfft.toNat,
         fft_out := fftr nfft
           (applyWindow input (hannWindow nfft.toNat) nfft.toNat) },
       writeMags output
         (fftr nfft (applyWindow input (hannWindow nfft.toNat) nfft.toNat))
         (min output.length (nfft.toNat / 2)) (((nfft / 2 : ℤ) : ℝ))) := by
  unfold computeFft
  rw [if_neg (by omega), if_pos hre, ha]
  rfl

theorem computeFft_rebuild_nobuf (allocOk : ℤ → Bool)
    (fftr : ℤ → List ℝ → List (Cpx ℝ)) (s : FftState)
    (input output : List ℝ) (nfft : ℤ) (hn : 0 < nfft)
    (hre : s.cfg = none ∨ s.current_nfft ≠ nfft)
    (ha : allocOk nfft = true) :
    computeFft allocOk fftr s input output nfft false =
      ({ cfg := some nfft, current_nfft := nfft,
         window := hannWindow nfft.toNat,
         fft_in := vecResize s.fft_in nfft.toNat 0,
         fft_out := vecResize s.fft_out (nfft.toNat / 2 + 1) ⟨0, 0⟩ },
       output) := by
  unfold computeFft
  rw [if_neg (by omega), if_pos hre, ha]
  rfl

theorem computeFft_alloc_fail (allocOk : ℤ → Bool)
    (fftr : ℤ → List ℝ → List (Cpx ℝ)) (s : FftState)
    (input output : List ℝ) (nfft : ℤ) (buffersOk : Bool) (hn : 0 < nfft)
    (hre : s.cfg = none ∨ s.current_nfft ≠ nfft)
    (ha : allocOk nfft = false) :
    computeFft allocOk fftr s input output nfft buffersOk
      = ({ s with cfg := none }, output) := by
  unfold computeFft
  rw [if_neg (by omega), if_pos hre, ha]
  rfl

theorem computeFft_hit (allocOk : ℤ → Bool)
    (fftr : ℤ → List ℝ → List (Cpx ℝ)) (s : FftState) (c : ℤ)
    (input output : List ℝ) (nfft : ℤ) (hcfg : s.cfg = some c)
    (hcur : s.current_nfft = nfft) (hn : 0 < nfft) :
    computeFft allocOk fftr s input output nfft true =
      ({ s with
          fft_in := applyWindow input s.window nfft.toNat,
          fft_out := fftr c (applyWindow input s.window nfft.toNat) },
       writeMags output (fftr c (applyWindow input s.window nfft.toNat))
         (min output.length (nfft.toNat / 2)) (((nfft / 2 : ℤ) : ℝ))) := by
  obtain ⟨oc, cur, w, fi, fo⟩ := s
  have hc1 : oc = some c := hcfg
  subst hc1
  have hc2 : cur = nfft := hcur
  subst hc2
  unfold computeFft
  rw [if_neg (by omega), if_neg (by simp)]
  rfl

theorem computeFft_hit_nobuf (allocOk : ℤ → Bool)
    (fftr : ℤ → List ℝ → List (Cpx ℝ)) (s : FftState) (c : ℤ)
    (input output : List ℝ) (nfft : ℤ) (hcfg : s.cfg = some c)
    (hcur : s.current_nfft = nfft) (hn : 0 < nfft) :
    computeFft allocOk fftr s input output nfft false = (s, output) := by
  obtain ⟨oc, cur, w, fi, fo⟩ := s
  have hc1 : oc = some c := hcfg
  subst hc1
  have hc2 : cur = nfft := hcur
  subst hc2
  unfold computeFft
  rw [if_neg (by omega), if_neg (by simp)]
  rfl

/-! ### Preservation of cache well-formedness -/

theorem initState_CacheWF : CacheWF initState := by
  intro c hc
  simp [initState] at hc

theorem cleanupFft_CacheWF (s : FftState) : CacheWF (cleanupFft s) := by
  intro c hc
  simp [cleanupFft] at hc

theorem computeFft_CacheWF (allocOk : ℤ → Bool)
    (fftr : ℤ → List ℝ → List (Cpx ℝ)) (hf : FftrContract fftr)
    (s : FftState) (input output : List ℝ) (nfft : ℤ) (buffersOk : Bool)
    (h : CacheWF s) :
    CacheWF (computeFft allocOk fftr s input output nfft buffersOk).1 := by
  by_cases hn : nfft ≤ 0
  · rw [computeFft_nonpos allocOk fftr s input output nfft buffersOk hn]
    exact h
  push_neg at hn
  by_cases hre : s.cfg = none ∨ s.current_nfft ≠ nfft
  · by_cases ha : allocOk nfft = true
    · cases buffersOk with
      | false =>
        rw [computeFft_rebuild_nobuf allocOk fftr s input output nfft hn
          hre ha]
        intro c hc
        obtain rfl : nfft = c := by simpa using hc
        refine ⟨rfl, hn, rfl, ?_, ?_, ?_⟩
        · exact hannWindow_length nfft.toNat
        · exact vecResize_length s.fft_in nfft.toNat 0
        · exact vecResize_length s.fft_out (nfft.toNat / 2 + 1) _
      | true =>
        rw [computeFft_rebuild allocOk fftr s input output nfft hn hre ha]
        intro c hc
        obtain rfl : nfft = c := by simpa using hc
        refine ⟨rfl, hn, rfl, ?_, ?_, ?_⟩
        · exact hannWindow_length nfft.toNat
        · exact applyWindow_length input (hannWindow nfft.toNat) nfft.toNat
        · exact hf nfft (applyWindow input (hannWindow nfft.toNat) nfft.toNat)
    · have ha' : allocOk nfft = false := by
        simpa using ha
      rw [computeFft_alloc_fail allocOk fftr s input output nfft buffersOk
        hn hre ha']
      intro c hc
      simp at hc
  · push_neg at hre
    obtain ⟨hc0, hcur⟩ := hre
    obtain ⟨c0, hcfg⟩ := Option.ne_none_iff_exists'.mp hc0
    obtain ⟨hcur0, hpos0, hwin0, hsz0⟩ := h c0 hcfg
    cases buffersOk with
    | false =>
      rw [computeFft_hit_nobuf allocOk fftr s c0 input output nfft hcfg
        hcur hn]
      exact h
    | true =>
      rw [computeFft_hit allocOk fftr s c0 input output nfft hcfg hcur hn]
      intro c hc
      have hc' : s.cfg = some c := by simpa using hc
      obtain rfl : c0 = c := by
        rw [hcfg] at hc'
        exact Option.some.inj hc'
      refine ⟨hcur0, hpos0, hwin0, hsz0.1, ?_, ?_⟩
      · rw [applyWindow_length, hcur]
      · rw [hf c0 (applyWindow input s.window nfft.toNat), hcur0]

theorem reachable_CacheWF (fftr : ℤ → List ℝ → List (Cpx ℝ))
    (hf : FftrContract fftr) (s : FftState) (hs : Reachable fftr s) :
    CacheWF s := by
  induction hs with
  | init => exact initState_CacheWF
  | compute s allocOk input output nfft buffersOk _ ih =>
    exact computeFft_CacheWF allocOk fftr hf s input output nfft buffersOk ih
  | cleanup s _ _ => exact cleanupFft_CacheWF s

theorem computeFft_output_canonical (allocOk : ℤ → Bool)
    (fftr : ℤ → List ℝ → List (Cpx ℝ)) (s : FftState)
    (input output : List ℝ) (nfft : ℤ) (h : CacheWF s) (hn : 0 < nfft)
    (ha : allocOk nfft = true) :
    (computeFft allocOk fftr s input output nfft true).2 =
      writeMags output
        (fftr nfft (applyWindow input (hannWindow nfft.toNat) nfft.toNat))
        (min output.length (nfft.toNat / 2)) (((nfft / 2 : ℤ) : ℝ)) := by
  by_cases hre : s.cfg = none ∨ s.current_nfft ≠ nfft
  · rw [computeFft_rebuild allocOk fftr s input output nfft hn hre ha]
  · push_neg at hre
    obtain ⟨hc0, hcur⟩ := hre
    obtain ⟨c0, hcfg⟩ := Option.ne_none_iff_exists'.mp hc0
    obtain ⟨hcur0, _, hwin0, _⟩ := h c0 hcfg
    have hceq : c0 = nfft := by rw [← hcur0, hcur]
    rw [computeFft_hit allocOk fftr s c0 input output nfft hcfg hcur hn,
      hwin0, hceq]

/-! ## The claims about the pipeline -/

/-- C2: for every `computeFft` call with `nfft > 0` that reaches the
magnitude-output stage (buffers accessible; allocation succeeds whenever a
rebuild is triggered), exactly `bins = min(output.length, nfft/2)`
magnitudes are written, at indices `0..bins-1` (the Nyquist bin `nfft/2` is
excluded by `bins ≤ nfft/2`): the output keeps its length, every index at
or beyond `bins` keeps its previous value, every index below `bins`
receives the computed magnitude, and no input element at index `≥ nfft` is
read (the call behaves identically on `input.take nfft`). -/
theorem computeFft_output_bounds (allocOk : ℤ → Bool)
    (fftr : ℤ → List ℝ → List (Cpx ℝ)) (s : FftState)
    (input output : List ℝ) (nfft : ℤ) (hn : 0 < nfft)
    (hens : (s.cfg = none ∨ s.current_nfft ≠ nfft) → allocOk nfft = true) :
    (computeFft allocOk fftr s input output nfft true).2.length
        = output.length ∧
      (∀ i, min output.length (nfft.toNat / 2) ≤ i →
        (computeFft allocOk fftr s input output nfft true).2.getD i 0
          = output.getD i 0) ∧
      (∀ i, i < min output.length (nfft.toNat / 2) →
        (computeFft allocOk fftr s input output nfft true).2.getD i 0
          = magAt (computeFft allocOk fftr s input output nfft
              true).1.fft_out i / (((nfft / 2 : ℤ) : ℝ))) ∧
      computeFft allocOk fftr s (input.take nfft.toNat) output nfft true
        = computeFft allocOk fftr s input output nfft true := by
  by_cases hre : s.cfg = none ∨ s.current_nfft ≠ nfft
  · have ha := hens hre
    rw [computeFft_rebuild allocOk fftr s input output nfft hn hre ha,
      computeFft_rebuild allocOk fftr s (input.take nfft.toNat) output nfft
        hn hre ha, applyWindow_take]
    refine ⟨writeMags_length _ _ _ _, ?_, ?_, rfl⟩
    · intro i hi
      exact writeMags_getD_ge _ _ _ _ i hi
    · intro i hi
      exact writeMags_getD_lt _ _ _ _ i hi (by omega)
  · push_neg at hre
    obtain ⟨hc0, hcur⟩ := hre
    obtain ⟨c0, hcfg⟩ := Option.ne_none_iff_exists'.mp hc0
    rw [computeFft_hit allocOk fftr s c0 input output nfft hcfg hcur hn,
      computeFft_hit allocOk fftr s c0 (input.take nfft.toNat) output nfft
        hcfg hcur hn, applyWindow_take]
    refine ⟨writeMags_length _ _ _ _, ?_, ?_, rfl⟩
    · intro i hi
      exact writeMags_getD_ge _ _ _ _ i hi
    · intro i hi
      exact writeMags_getD_lt _ _ _ _ i hi (by omega)

/-- C2 witness: a concrete call at size 4 with a two-slot output buffer. -/
theorem computeFft_output_bounds_witness :
    (0 < (4 : ℤ)) ∧
      (computeFft (fun _ => true) fftr0 initState [1, 2, 3, 4]
          [0, 0] 4 true).2.length = 2 :=
  ⟨by decide,
    (computeFft_output_bounds (fun _ => true) fftr0 initState [1, 2, 3, 4]
      [0, 0] 4 (by decide) (fun _ => rfl)).1⟩

/-- C3 counterexample: after a successful call at size 4, a call at size 8
whose allocation fails leaves the configuration null but the cached size at
its previous value 4 — it is NOT reset to the invalid value 0 as the claim
states. -/
theorem computeFft_alloc_fail_stale_size_cex :
    (computeFft (fun _ => false) fftr0
        (computeFft (fun _ => true) fftr0 initState [] [] 4 true).1
        [] [] 8 true).1.cfg = none ∧
      (computeFft (fun _ => false) fftr0
        (computeFft (fun _ => true) fftr0 initState [] [] 4 true).1
        [] [] 8 true).1.current_nfft = 4 := by
  rw [computeFft_rebuild (fun _ => true) fftr0 initState [] [] 4
    (by decide) (Or.inl rfl) rfl]
  rw [computeFft_alloc_fail (fun _ => false) fftr0 _ [] [] 8 true
    (by decide) (Or.inr (by decide)) rfl]
  exact ⟨rfl, rfl⟩

/-- C3 (amended): if `nfft > 0`, a rebuild is triggered and allocation
fails, the call produces no output and frees the configuration (the cache
is in the "no configuration" state, so every later call rebuilds), and all
scratch buffers are untouched; the cached size, however, is left at its
previous value rather than being reset to 0. -/
theorem computeFft_alloc_fail_state (allocOk : ℤ → Bool)
    (fftr : ℤ → List ℝ → List (Cpx ℝ)) (s : FftState)
    (input output : List ℝ) (nfft : ℤ) (buffersOk : Bool) (hn : 0 < nfft)
    (hre : s.cfg = none ∨ s.current_nfft ≠ nfft)
    (ha : allocOk nfft = false) :
    (computeFft allocOk fftr s input output nfft buffersOk).1.cfg = none ∧
      (computeFft allocOk fftr s input output nfft
          buffersOk).1.current_nfft = s.current_nfft ∧
      (computeFft allocOk fftr s input output nfft buffersOk).1.window
        = s.window ∧
      (computeFft allocOk fftr s input output nfft buffersOk).1.fft_in
        = s.fft_in ∧
      (computeFft allocOk fftr s input output nfft buffersOk).1.fft_out
        = s.fft_out ∧
      (computeFft allocOk fftr s input output nfft buffersOk).2 = output := by
  rw [computeFft_alloc_fail allocOk fftr s input output nfft buffersOk hn
    hre ha]
  exact ⟨rfl, rfl, rfl, rfl, rfl, rfl⟩

/-- C3 (amended) witness: a failing allocation at size 8 from the initial
state. -/
theorem computeFft_alloc_fail_state_witness :
    (0 < (8 : ℤ)) ∧
      (initState.cfg = none ∨ initState.current_nfft ≠ 8) ∧
      (computeFft (fun _ => false) fftr0 initState [] [] 8 true).1.cfg
        = none :=
  ⟨by decide, Or.inl rfl,
    (computeFft_alloc_fail_state (fun _ => false) fftr0 initState [] [] 8
      true (by decide) (Or.inl rfl) rfl).1⟩

/-- C4 counterexample: the claimed buffer-length invariant fails at the
initial observation point (before any call): the complex-spectrum buffer is
empty, not of the claimed length `0/2 + 1 = 1`. -/
theorem initState_sizes_cex : ¬ SizesConsistent initState := by
  intro h
  have h3 := h.2.2
  simp [initState] at h3

/-- C4 (amended): at every reachable observation point at which a
configuration is held, the cached size equals the size the configuration
was built for, and `WindowTable.length = WindowedBuffer.length =
TransformSize` and `ComplexSpectrum.length = TransformSize/2 + 1` all hold
for the cached size.  (The invariant does not hold at the initial state or
after cleanup, where no configuration is held.) -/
theorem reachable_sizes_consistent (fftr : ℤ → List ℝ → List (Cpx ℝ))
    (hf : FftrContract fftr) (s : FftState) (hs : Reachable fftr s)
    (c : ℤ) (hc : s.cfg = some c) :
    s.current_nfft = c ∧ SizesConsistent s := by
  obtain ⟨h1, _, _, h4⟩ := reachable_CacheWF fftr hf s hs c hc
  exact ⟨h1, h4⟩

/-- C4 (amended) witness: the state after one successful call at size 2 is
reachable, holds a configuration, and satisfies the length invariant. -/
theorem reachable_sizes_consistent_witness :
    FftrContract fftr0 ∧
      Reachable fftr0
        (computeFft (fun _ => true) fftr0 initState [] [] 2 true).1 ∧
      (computeFft (fun _ => true) fftr0 initState [] [] 2 true).1.cfg
        = some 2 ∧
      ((computeFft (fun _ => true) fftr0 initState [] [] 2
            true).1.current_nfft = 2 ∧
        SizesConsistent
          (computeFft (fun _ => true) fftr0 initState [] [] 2 true).1) := by
  have hr : Reachable fftr0
      (computeFft (fun _ => true) fftr0 initState [] [] 2 true).1 :=
    Reachable.compute initState (fun _ => true) [] [] 2 true Reachable.init
  have hc : (computeFft (fun _ => true) fftr0 initState [] [] 2 true).1.cfg
      = some 2 := by
    rw [computeFft_rebuild (fun _ => true) fftr0 initState [] [] 2
      (by decide) (Or.inl rfl) rfl]
  exact ⟨fftr0_contract, hr, hc,
    reachable_sizes_consistent fftr0 fftr0_contract _ hr 2 hc⟩

/-- C5: for every call that reaches the magnitude stage (from a well-formed
cache state) and every written index `i < bins`, the output value equals
`sqrt(re^2 + im^2)` of the `i`-th complex bin of the forward real transform
of the Hann-windowed input, divided by the integer-truncated quotient
`nfft / 2` cast to the scalar type (so for odd `nfft` the divisor is
`(nfft-1)/2`). -/
theorem computeFft_magnitude_formula (allocOk : ℤ → Bool)
    (fftr : ℤ → List ℝ → List (Cpx ℝ)) (s : FftState)
    (input output : List ℝ) (nfft : ℤ) (h : CacheWF s) (hn : 0 < nfft)
    (ha : allocOk nfft = true) (i : ℕ)
    (hi : i < min output.length (nfft.toNat / 2)) :
    (computeFft allocOk fftr s input output nfft true).2.getD i 0
      = Real.sqrt
          (((fftr nfft (applyWindow input (hannWindow nfft.toNat)
              nfft.toNat)).getD i ⟨0, 0⟩).r ^ 2
            + ((fftr nfft (applyWindow input (hannWindow nfft.toNat)
                nfft.toNat)).getD i ⟨0, 0⟩).i ^ 2)
          / (((nfft / 2 : ℤ) : ℝ)) := by
  rw [computeFft_output_canonical allocOk fftr s input output nfft h hn ha]
  rw [writeMags_getD_lt _ _ _ _ i hi (by omega)]
  rw [magAt, pow_two, pow_two]

/-- C5 witness: a concrete call at size 2 writing bin 0. -/
theorem computeFft_magnitude_formula_witness :
    CacheWF initState ∧ (0 < (2 : ℤ)) ∧
      (0 < min ([0] : List ℝ).length ((2 : ℤ).toNat / 2)) ∧
      (computeFft (fun _ => true) fftr0 initState [1, 1] [0] 2
          true).2.getD 0 0
        = Real.sqrt
            (((fftr0 2 (applyWindow [1, 1] (hannWindow (2 : ℤ).toNat)
                (2 : ℤ).toNat)).getD 0 ⟨0, 0⟩).r ^ 2
              + ((fftr0 2 (applyWindow [1, 1] (hannWindow (2 : ℤ).toNat)
                  (2 : ℤ).toNat)).getD 0 ⟨0, 0⟩).i ^ 2)
            / ((((2 : ℤ) / 2 : ℤ) : ℝ)) :=
  ⟨initState_CacheWF, by decide, by decide,
    computeFft_magnitude_formula (fun _ => true) fftr0 initState [1, 1]
      [0] 2 initState_CacheWF (by decide) rfl 0 (by decide)⟩

/-- C6: the window table built for size `n` has
`w[i] = 0.5 * (1 - cos(2*pi*i/(n-1)))` at every `i < n` (a pure function of
`n` alone), and it is recomputed only when the configuration cache
rebuilds: a call for which a configuration is held and the cached size
matches leaves the window table untouched. -/
theorem hannWindow_spec :
    (∀ n i, i < n →
      (hannWindow n).getD i 0
        = 0.5 * (1 - Real.cos (2 * Real.pi * i / ((n : ℝ) - 1)))) ∧
    ∀ (allocOk : ℤ → Bool) (fftr : ℤ → List ℝ → List (Cpx ℝ))
      (s : FftState) (input output : List ℝ) (nfft : ℤ)
      (buffersOk : Bool), s.cfg ≠ none → s.current_nfft = nfft →
        (computeFft allocOk fftr s input output nfft buffersOk).1.window
          = s.window := by
  refine ⟨fun n i h => hannWindow_getD n i h, ?_⟩
  intro allocOk fftr s input output nfft buffersOk hc0 hcur
  obtain ⟨c0, hcfg⟩ := Option.ne_none_iff_exists'.mp hc0
  by_cases hn : nfft ≤ 0
  · rw [computeFft_nonpos allocOk fftr s input output nfft buffersOk hn]
  · push_neg at hn
    cases buffersOk with
    | false =>
      rw [computeFft_hit_nobuf allocOk fftr s c0 input output nfft hcfg
        hcur hn]
    | true =>
      rw [computeFft_hit allocOk fftr s c0 input output nfft hcfg hcur hn]

/-- C6 witness: the coefficient at index 1 of the size-4 window. -/
theorem hannWindow_spec_witness :
    (1 < 4) ∧
      (hannWindow 4).getD 1 0
        = 0.5 * (1 - Real.cos (2 * Real.pi * ((1 : ℕ) : ℝ)
            / (((4 : ℕ) : ℝ) - 1))) :=
  ⟨by decide, hannWindow_spec.1 4 1 (by decide)⟩

/-- C7: from any well-formed cache state, calling at size `A`, then size
`B`, then size `A` again with the first call's input and output buffer
makes the third call produce output equal to the first call's output: the
cache rebuild is keyed only on the requested size, not on call history. -/
theorem computeFft_reconfiguration (allocOk1 allocOk2 allocOk3 : ℤ → Bool)
    (fftr : ℤ → List ℝ → List (Cpx ℝ)) (hf : FftrContract fftr)
    (s0 : FftState) (h0 : CacheWF s0) (A B : ℤ) (hA : 0 < A)
    (ha1 : allocOk1 A = true) (ha3 : allocOk3 A = true)
    (input input2 out0 out2 : List ℝ) (b2 : Bool) :
    (computeFft allocOk3 fftr
        (computeFft allocOk2 fftr
          (computeFft allocOk1 fftr s0 input out0 A true).1
          input2 out2 B b2).1
        input out0 A true).2
      = (computeFft allocOk1 fftr s0 input out0 A true).2 := by
  have h1 : CacheWF (computeFft allocOk1 fftr s0 input out0 A true).1 :=
    computeFft_CacheWF allocOk1 fftr hf s0 input out0 A true h0
  have h2 : CacheWF (computeFft allocOk2 fftr
      (computeFft allocOk1 fftr s0 input out0 A true).1
      input2 out2 B b2).1 :=
    computeFft_CacheWF allocOk2 fftr hf
      (computeFft allocOk1 fftr s0 input out0 A true).1 input2 out2 B b2 h1
  rw [computeFft_output_canonical allocOk3 fftr _ input out0 A h2 hA ha3,
    computeFft_output_canonical allocOk1 fftr s0 input out0 A h0 hA ha1]

/-- C7 witness: sizes A = 2, B = 3 from the initial state. -/
theorem computeFft_reconfiguration_witness :
    FftrContract fftr0 ∧ CacheWF initState ∧ (0 < (2 : ℤ)) ∧
      (computeFft (fun _ => true) fftr0
          (computeFft (fun _ => true) fftr0
            (computeFft (fun _ => true) fftr0 initState [1] [0] 2 true).1
            [] [] 3 true).1
          [1] [0] 2 true).2
        = (computeFft (fun _ => true) fftr0 initState [1] [0] 2 true).2 :=
  ⟨fftr0_contract, initState_CacheWF, by decide,
    computeFft_reconfiguration (fun _ => true) (fun _ => true)
      (fun _ => true) fftr0 fftr0_contract initState initState_CacheWF 2 3
      (by decide) rfl rfl [1] [] [0] [] true⟩

/-- C8: for every `nfft ≤ 0` the call is a silent no-op: the global state
(configuration, cached size, window table, scratch buffers) and the
caller's output buffer are returned exactly unchanged. -/
theorem computeFft_invalid_size_noop (allocOk : ℤ → Bool)
    (fftr : ℤ → List ℝ → List (Cpx ℝ)) (s : FftState)
    (input output : List ℝ) (nfft : ℤ) (buffersOk : Bool) (h : nfft ≤ 0) :
    computeFft allocOk fftr s input output nfft buffersOk = (s, output) :=
  computeFft_nonpos allocOk fftr s input output nfft buffersOk h

/-- C8 witness: a call with `nfft = -1`. -/
theorem computeFft_invalid_size_noop_witness :
    ((-1 : ℤ) ≤ 0) ∧
      computeFft (fun _ => true) fftr0 initState [1] [0] (-1) true
        = (initState, [0]) :=
  ⟨by decide, computeFft_invalid_size_noop (fun _ => true) fftr0 initState
    [1] [0] (-1) true (by decide)⟩

/-- C9: `cleanupFft` unconditionally leaves the configuration freed (null)
and the cached size reset to the invalid value 0, and it is idempotent:
applying it twice gives the same state as applying it once (in particular
it is safe when nothing is held). -/
theorem cleanupFft_spec (s : FftState) :
    (cleanupFft s).cfg = none ∧ (cleanupFft s).current_nfft = 0 ∧
      cleanupFft (cleanupFft s) = cleanupFft s :=
  ⟨rfl, rfl, rfl⟩

/-- C1 witness: a size-4 transform decomposed as `fstride = 1`, `m = 2`,
`p = 2`, evaluated at lane 1, position 1, over the integers. -/
theorem kf_bfly_generic_lane_dft_witness :
    (1 * 2 * 2 = 4) ∧ (1 < 2) ∧ (1 < 2) ∧
      kf_bfly_generic (fun i => (⟨(i : ℤ), 1⟩ : Cpx ℤ)) 1
          (fun i => ⟨(i : ℤ) + 1, 2⟩) 4 2 2 (1 + 1 * 2)
        = (fun i => (⟨(i : ℤ), 1⟩ : Cpx ℤ)) 1
            + ∑ q ∈ Finset.Ico 1 2,
                C_MUL ((fun i => (⟨(i : ℤ), 1⟩ : Cpx ℤ)) (1 + q * 2))
                  ((fun i => (⟨(i : ℤ) + 1, 2⟩ : Cpx ℤ))
                    (q * 1 * (1 + 1 * 2) % 4)) :=
  ⟨by decide, by decide, by decide,
    kf_bfly_generic_lane_dft (fun i => (⟨(i : ℤ), 1⟩ : Cpx ℤ))
      (fun i => ⟨(i : ℤ) + 1, 2⟩) 1 4 2 2 1 1 (by decide) (by decide)
      (by decide)⟩

/-- C10 witness: a size-6 layer decomposed as `fstride = 1`, `m = 2`,
`p = 3`, at lane 1, position 2. -/
theorem kf_bfly_generic_accesses_in_bounds_witness :
    (1 * 2 * 3 = 6) ∧ (0 < 1) ∧ (1 < 2) ∧ (2 < 3) ∧
      (1 + 2 * 2 < 2 * 3 ∧
        ∀ q, q < 3 →
          twidxAt (1 * (1 + 2 * 2)) 6 q < 6 ∧
            twidxAt (1 * (1 + 2 * 2)) 6 q = q * (1 * (1 + 2 * 2)) % 6) :=
  ⟨by decide, by decide, by decide, by decide,
    kf_bfly_generic_accesses_in_bounds 1 6 2 3 1 2 (by decide) (by decide)
      (by decide) (by decide)⟩

end AudioAnalysis
